import Mathlib

/-!
Verification of the tutoring/quiz engine in src/src/App.tsx.

Text is modelled as a list of characters; the JavaScript string helpers
used by the source (indexOf, split, trim, startsWith) are embedded as
executable functions below, and the regex-driven option extraction of
App.tsx lines 346-356 and 418-421 is embedded by its observable
behaviour on strings (first occurrence of the label marker, capture up
to the earliest terminator, trimming). Whitespace is modelled as the
ASCII whitespace set, which covers every input the source grammar uses.
-/

/-- Text, modelled as a list of characters. -/
abbrev Str := List Char

/-- Trim of surrounding whitespace, as the JavaScript trim() used at
App.tsx lines 349, 417, 421. -/
def trimL (s : Str) : Str :=
  ((s.dropWhile Char.isWhitespace).reverse.dropWhile Char.isWhitespace).reverse

/-- Index of the first occurrence of pat as a contiguous substring of s,
as JavaScript indexOf / regex search position. -/
def firstIdx? (pat : Str) : Str → Option Nat
  | [] => if pat.isPrefixOf ([] : Str) then some 0 else none
  | c :: rest =>
    if pat.isPrefixOf (c :: rest) then some 0
    else (firstIdx? pat rest).map (· + 1)

/-- Substring test, as JavaScript includes() at App.tsx line 344. -/
def containsSub (pat s : Str) : Bool := (firstIdx? pat s).isSome

/-- Fuel-driven worker for splitOn. All call sites in the source pass a
non-empty delimiter, so every recursive step consumes at least one
character of s; the initial fuel (length of s plus one) therefore
strictly exceeds the number of steps and the zero-fuel branch is never
reached for those delimiters. -/
def splitGo (delim : Str) : Nat → Str → List Str
  | 0, s => [s]
  | fuel + 1, s =>
    match firstIdx? delim s with
    | none => [s]
    | some i => s.take i :: splitGo delim fuel (s.drop (i + delim.length))

/-- JavaScript split on a literal delimiter, as used at App.tsx lines
415 (on three dashes) and 417. -/
def splitOn (delim : Str) (s : Str) : List Str := splitGo delim (s.length + 1) s

/-- The quiz-stem marker of the upstream micro-format. -/
def mSORU : Str := "SORU:".toList

/-- The first option marker, used for shape detection and stem cutting. -/
def mOptA : Str := "A)".toList

/-- The correct-label marker. -/
def mCEVAP : Str := "CEVAP:".toList

/-- The near-miss-label marker. -/
def mYAKIN : Str := "YAKIN:".toList

/-- The terminators of an option capture, from the lookahead of the
regex at App.tsx lines 347 and 419: a B), C) or D) marker, the CEVAP:
marker, the YAKIN: marker, or end of text. Note the lookahead character
class excludes the A) marker. -/
def optTerms : List Str :=
  ["B)".toList, "C)".toList, "D)".toList, "CEVAP:".toList, "YAKIN:".toList]

/-- Index at which the earliest terminator occurs in s, or the length of
s when none occurs: the cut point of the non-greedy capture of the
option regex (the whitespace consumed by the lookahead is removed by the
trim that follows every capture in the source). -/
def firstTermIdx (s : Str) : Nat :=
  (optTerms.map (fun m => (firstIdx? m s).getD s.length)).foldr min s.length

/-- Option extraction for one label, embedding the regex match at
App.tsx lines 346-349 and 418-421: find the first occurrence of the
label followed by a closing parenthesis, capture from just after it up
to the earliest terminator (or end of text), and trim. No occurrence of
the label marker means the regex fails and the map entry is the empty
string. -/
def extractOpt (block : Str) (l : Char) : Option Str :=
  match firstIdx? [l, ')'] block with
  | none => none
  | some i =>
    let rest := block.drop (i + 2)
    some (trimL (rest.take (firstTermIdx rest)))

/-- The stored form of a surviving option: the label, a closing
parenthesis, a space, then the captured text, as the template literal at
App.tsx lines 349 and 421. -/
def mkOpt (l : Char) (t : Str) : Str := l :: ')' :: ' ' :: t

/-- The fixed label list mapped over at App.tsx lines 346 and 418. -/
def quizLabels : List Char := ['A', 'B', 'C', 'D']

/-- The per-label map of App.tsx lines 346-350 and 418-422: a matching
label yields its stored option, a non-matching one yields the empty
string. -/
def optionEntries (block : Str) : List Str :=
  quizLabels.map fun l =>
    match extractOpt block l with
    | some t => mkOpt l t
    | none => []

/-- The options of a parsed quiz item: the entries with the empty
strings filtered out, as options.filter at App.tsx lines 356 and 429. -/
def parseOptions (block : Str) : List Str :=
  (optionEntries block).filter (fun o => !o.isEmpty)

/-- Fuel-driven worker for labelAfter; as with splitGo, each step
consumes at least one character, so the initial fuel strictly exceeds
the number of steps and the zero-fuel branch is never reached. -/
def labelAfterGo (mark : Str) : Nat → Str → Option Char
  | 0, _ => none
  | fuel + 1, s =>
    match firstIdx? mark s with
    | none => none
    | some i =>
      match (s.drop (i + mark.length)).dropWhile Char.isWhitespace with
      | c :: _ =>
        if c = 'A' ∨ c = 'B' ∨ c = 'C' ∨ c = 'D' then some c
        else labelAfterGo mark fuel (s.drop (i + 1))
      | [] => labelAfterGo mark fuel (s.drop (i + 1))

/-- Embedding of the regex captures at App.tsx lines 351-352 and
423-424: the first occurrence of the marker that is followed, after
whitespace, by one of the letters A-D, yields that letter; the regex
engine otherwise resumes the search one position further on. -/
def labelAfter (mark : Str) (s : Str) : Option Char :=
  labelAfterGo mark (s.length + 1) s

/-- Speaker of a chat message, the role field of the Message interface
at App.tsx line 73. -/
inductive Role
  | user
  | model
deriving DecidableEq, Repr

/-- Per-item outcome, the answerStatus values at App.tsx line 102. -/
inductive Outcome
  | correct
  | close
  | incorrect
deriving DecidableEq, Repr

/-- The optional type tag of the Message interface at App.tsx line 80. -/
inductive MsgType
  | text
  | quiz
  | image
  | video
deriving DecidableEq, Repr

/-- The Message interface of App.tsx lines 72-81; optional fields are
Options. -/
structure Msg where
  role : Role
  text : Str
  image : Option Str := none
  video : Option Str := none
  options : Option (List Str) := none
  correctAnswer : Option Char := none
  closeAnswer : Option Char := none
  mtype : Option MsgType := none
deriving DecidableEq, Repr

/-- The placeholder stem of App.tsx line 417. -/
def stemFallback : Str := "Soru yüklenemedi.".toList

/-- Stem extraction of the batch parser, App.tsx line 417: the text
between the first SORU: marker and the next SORU: marker, cut before the
first A) marker and trimmed; a missing SORU: marker or an empty result
falls back to the placeholder (the JavaScript or-operator treats the
empty string as falsy). -/
def stemOf (block : Str) : Str :=
  match (splitOn mSORU block).get? 1 with
  | none => stemFallback
  | some seg =>
    let t := trimL ((splitOn mOptA seg).headD [])
    if t.isEmpty then stemFallback else t

/-- Stem extraction of the single-message parser, App.tsx line 345,
reached only under the shape guard of line 344 so the second split
segment exists. -/
def stemSingle (t : Str) : Str :=
  trimL ((splitOn mOptA ((splitOn mSORU t).getD 1 [])).headD [])

/-- Parse of one batch segment, App.tsx lines 416-433. -/
def parseBlock (block : Str) : Msg :=
  { role := Role.model
    text := stemOf block
    options := some (parseOptions block)
    correctAnswer := labelAfter mCEVAP block
    closeAnswer := labelAfter mYAKIN block
    mtype := some MsgType.quiz }

/-- The batch parser of startQuiz, App.tsx lines 414-434: split the raw
text on the three-dash delimiter, parse every segment, and keep the
segments whose options list is non-empty. -/
def parseBatch (raw : Str) : List Msg :=
  ((splitOn ("---".toList) raw).map parseBlock).filter fun q =>
    match q.options with
    | some l => !l.isEmpty
    | none => false

/-- The single-message parser of handleStudyMessage, App.tsx lines
340-361: a text containing both the SORU: and the A) markers becomes a
quiz message, any other text a plain model message. -/
def parseSingle (aiText : Str) : Msg :=
  if containsSub mSORU aiText && containsSub mOptA aiText then
    { role := Role.model
      text := stemSingle aiText
      options := some (parseOptions aiText)
      correctAnswer := labelAfter mCEVAP aiText
      closeAnswer := labelAfter mYAKIN aiText
      mtype := some MsgType.quiz }
  else
    { role := Role.model, text := aiText }

/-- The quiz-relevant component state of App, App.tsx lines 98-103:
quizQuestions, quizScore, currentQuizIndex, answerStatus (an object
keyed by item index), selectedAnswer and quizFinished. -/
structure QState where
  items : List Msg
  score : ℚ
  cursor : Nat
  outcomes : Nat → Option Outcome
  pending : Option Char
  finished : Bool

/-- The answer handler of App.tsx lines 444-464 up to and including the
outcome recording: an early return when a selection is pending,
otherwise the current item is read (none models the TypeError thrown
when the index access yields undefined), the answer is compared to the
correct label strictly before the close label, the score is increased by
100 over the item count for correct and 50 over the item count for
close, the outcome is recorded at the cursor and the selection is set. -/
def handleQuizAnswer (s : QState) (ans : Char) : Option QState :=
  if s.pending.isSome then some s
  else
    match s.items.get? s.cursor with
    | none => none
    | some q =>
      if some ans = q.correctAnswer then
        some { s with
          score := s.score + 100 / (s.items.length : ℚ)
          pending := some ans
          outcomes := fun i => if i = s.cursor then some Outcome.correct else s.outcomes i }
      else if some ans = q.closeAnswer then
        some { s with
          score := s.score + 50 / (s.items.length : ℚ)
          pending := some ans
          outcomes := fun i => if i = s.cursor then some Outcome.close else s.outcomes i }
      else
        some { s with
          pending := some ans
          outcomes := fun i => if i = s.cursor then some Outcome.incorrect else s.outcomes i }

/-- The timeout body of App.tsx lines 466-473, run 1500 milliseconds
after an accepted answer: clear the selection, then either advance the
cursor or, when the cursor is at the last item, mark the quiz finished
(the cursor itself stays at the last index). -/
def quizAdvance (s : QState) : QState :=
  if s.cursor < s.items.length - 1 then
    { s with pending := none, cursor := s.cursor + 1 }
  else
    { s with pending := none, finished := true }

/-- Events a quiz session can process: a click on an option button, or
the firing of the pending 1500-millisecond timeout. -/
inductive QEvent
  | answer (ans : Char)
  | advance

/-- One interface step. An answer click can only happen while the quiz
is not finished and the item list is non-empty, because the option
buttons are rendered only under those conditions (App.tsx lines 948,
965, 975) and are disabled while a selection is pending (line 999); the
handler itself additionally guards on the pending selection (line 445).
The timeout can only fire while a selection is pending, because it is
scheduled exactly once per accepted answer and clears the selection when
it runs. -/
def uiStep (s : QState) (e : QEvent) : QState :=
  match e with
  | QEvent.answer ans =>
    if s.finished then s
    else if s.items.isEmpty then s
    else
      match handleQuizAnswer s ans with
      | some s2 => s2
      | none => s
  | QEvent.advance => if s.pending.isSome then quizAdvance s else s

/-- A run of the session from a state through a list of events. -/
def runQ (s : QState) (es : List QEvent) : QState := es.foldl uiStep s

/-- The state right after the synchronous part of startQuiz (App.tsx
lines 386-391) followed by the arrival of a batch: score, cursor,
outcomes, selection and the finished flag reset, items installed. -/
def initQ (items : List Msg) : QState :=
  { items := items
    score := 0
    cursor := 0
    outcomes := fun _ => none
    pending := none
    finished := false }

/-- The item count requested by startQuiz, App.tsx line 395. -/
def questionCount (isBattleRoyale : Bool) : Nat := if isBattleRoyale then 100 else 5

/-- The synchronous reset performed by every startQuiz call, App.tsx
lines 387-391; the item list itself is replaced only later, when the
generation response arrives. -/
def startQuizReset (s : QState) : QState :=
  { s with
    score := 0
    cursor := 0
    outcomes := fun _ => none
    pending := none
    finished := false }

/-- The completion of one startQuiz generation request, App.tsx lines
414-436: the response text is batch parsed and installed wholesale. The
source attaches no request identity to the response, so completions
apply in arrival order whatever call they belong to. -/
def startQuizComplete (s : QState) (raw : Str) : QState :=
  { s with items := parseBatch raw }

/-- The score shown on the finish screen, App.tsx line 1030: Math.round
of the accumulated score (Math.round rounds halves up, as round does). -/
def finalScoreDisplay (s : QState) : ℤ := round s.score

/-- Outcome of one generation call: the response text, or a thrown
error (rejection of the await). -/
inductive GenOutcome
  | ok (t : Str)
  | err

/-- The fallback response set by the catch of handleAiGenerate, App.tsx
line 151. -/
def fallbackText : Str := "Üzgünüm, şu an yanıt üretemiyorum. Lütfen tekrar deneyin.".toList

/-- The response text produced by handleAiGenerate, App.tsx lines
136-156: the model text on success, the fallback message on any thrown
error. -/
def handleAiGenerate (res : GenOutcome) : Str :=
  match res with
  | GenOutcome.ok t => t
  | GenOutcome.err => fallbackText

/-- A user chat message as appended at App.tsx line 222. -/
def userMsg (text : Str) : Msg := { role := Role.user, text := text }

/-- The chat-log effect of handleStudyMessage, App.tsx lines 219-371,
for the tutoring path: the user message is appended first; on success
the parsed model message follows; a thrown error (an upstream rejection,
or the media-generation failures thrown at lines 270 and 307) reaches
the catch at lines 365-368, which only logs and plays an error sound, so
no model message is appended. -/
def handleStudyMessage (msgs : List Msg) (text : Str) (res : GenOutcome) : List Msg :=
  match res with
  | GenOutcome.ok t => (msgs ++ [userMsg text]) ++ [parseSingle t]
  | GenOutcome.err => msgs ++ [userMsg text]

/-- The two-segment batch example of the design document. -/
def ex2 : Str :=
  "SORU: Q1 A) a B) b C) c D) d CEVAP: A --- SORU: Q2 A) a B) b C) c D) d CEVAP: B".toList

/-- A two-segment batch whose second segment carries no options. -/
def exDrop : Str := "SORU: Q1 A) a B) b CEVAP: A --- just text with no choices".toList

/-- A segment with an option marker but no SORU: marker. -/
def exShape : Str := "hello A) x".toList

/-- A segment whose CEVAP: letter names no option of the segment. -/
def exBadLabel : Str := "SORU: q A) x CEVAP: B".toList

/-- A segment in which an A) marker occurs inside the text of option B. -/
def exC7 : Str := "SORU: q B) foo A) bar CEVAP: A".toList

/-- A one-item batch whose correct label is A. -/
def exOne : Str := "SORU: q A) x B) y CEVAP: A".toList

/-- A default message, used only to pick elements out of concrete parsed
lists in closed statements. -/
def msgDefault : Msg := { role := Role.model, text := [] }

/-- The state of a one-item session after its only answer has been
submitted and resolved: the finish screen. -/
def sFinDemo : QState := runQ (initQ (parseBatch exOne)) [QEvent.answer 'A', QEvent.advance]

/-- The two-item example session right after its first answer: the
selection is pending and the display-delay timeout is outstanding. -/
def sMidDemo : QState := runQ (initQ (parseBatch ex2)) [QEvent.answer 'A']

/-- The progress contribution of a pending selection: an accepted but
not yet resolved answer counts as one more graded item. -/
def pendBit (s : QState) : ℚ := if s.pending.isSome then 1 else 0

/-- Inductive invariant of a quiz session: on an empty item list
nothing ever happens; otherwise the cursor stays in range, a finished
session has no pending selection and a score of at most 100, and a
running session has a score of at most the number of graded answers
times the per-item maximum. -/
def Jinv (s : QState) : Prop :=
  (s.items.isEmpty = true → s.score = 0 ∧ s.pending = none)
  ∧ (s.items.isEmpty = false →
      s.cursor < s.items.length
      ∧ (s.finished = true → s.pending = none ∧ s.score ≤ 100)
      ∧ (s.finished = false →
          s.score ≤ ((s.cursor : ℚ) + pendBit s) * (100 / (s.items.length : ℚ))))

/-- Modelled from the spec wording of C7, for comparison with the
source extraction only: the identical capture, except that the claimed
terminator set treats every label marker as a cut point, the A) marker
included, as the phrase about the next label marker reads. -/
def claimTerms : List Str :=
  ["A)".toList, "B)".toList, "C)".toList, "D)".toList, "CEVAP:".toList, "YAKIN:".toList]

/-- Modelled from the spec wording of C7: earliest claimed terminator. -/
def firstTermIdxSpec (s : Str) : Nat :=
  (claimTerms.map (fun m => (firstIdx? m s).getD s.length)).foldr min s.length

/-- Modelled from the spec wording of C7: extraction that cuts at the
claimed terminator set. -/
def extractOptSpec (block : Str) (l : Char) : Option Str :=
  match firstIdx? [l, ')'] block with
  | none => none
  | some i =>
    some (trimL ((block.drop (i + 2)).take (firstTermIdxSpec (block.drop (i + 2)))))

/-- C1: on an active session with no pending selection, the grader
compares the answer to the correct label of the current item strictly
before the close label: a correct match records the correct outcome at
the cursor and adds 100 over the item count (the length of the item
list, the divisor at App.tsx lines 452 and 456) to the score; otherwise
a close match records the close outcome and adds 50 over the item count;
otherwise the incorrect outcome is recorded and the score is unchanged.
The first conjunct places no condition on the close label, so an exact
match to the correct label wins even when the close label equals the
correct label. -/
theorem grading_checks_correct_before_close (s : QState) (q : Msg) (ans : Char)
    (hp : s.pending = none) (hq : s.items.get? s.cursor = some q) :
    ∃ s2, handleQuizAnswer s ans = some s2 ∧
      (some ans = q.correctAnswer →
        s2.outcomes s.cursor = some Outcome.correct ∧
        s2.score = s.score + 100 / (s.items.length : ℚ)) ∧
      (some ans ≠ q.correctAnswer → some ans = q.closeAnswer →
        s2.outcomes s.cursor = some Outcome.close ∧
        s2.score = s.score + 50 / (s.items.length : ℚ)) ∧
      (some ans ≠ q.correctAnswer → some ans ≠ q.closeAnswer →
        s2.outcomes s.cursor = some Outcome.incorrect ∧
        s2.score = s.score) := by
  unfold handleQuizAnswer
  rw [hp]
  simp only [Option.isSome_none, Bool.false_eq_true, if_false, hq]
  by_cases h1 : some ans = q.correctAnswer
  · rw [if_pos h1]
    refine ⟨_, rfl, ?_, ?_, ?_⟩
    · intro _
      exact ⟨by simp, rfl⟩
    · intro hc
      exact absurd h1 hc
    · intro hc
      exact absurd h1 hc
  · rw [if_neg h1]
    by_cases h2 : some ans = q.closeAnswer
    · rw [if_pos h2]
      refine ⟨_, rfl, ?_, ?_, ?_⟩
      · intro hc
        exact absurd hc h1
      · intro _ _
        exact ⟨by simp, rfl⟩
      · intro _ hc
        exact absurd h2 hc
    · rw [if_neg h2]
      refine ⟨_, rfl, ?_, ?_, ?_⟩
      · intro hc
        exact absurd hc h1
      · intro _ hc
        exact absurd hc h2
      · intro _ _
        exact ⟨by simp, rfl⟩

/-- Witness for C1 at a concrete session: answering A on the first
item of the parsed example batch records the correct outcome. -/
theorem grading_checks_correct_before_close_witness :
    ∃ s2, handleQuizAnswer (initQ (parseBatch ex2)) 'A' = some s2 ∧
      s2.outcomes 0 = some Outcome.correct := by
  obtain ⟨s2, h1, h2, _, _⟩ :=
    grading_checks_correct_before_close (initQ (parseBatch ex2))
      ((parseBatch ex2).headD msgDefault) 'A' rfl (by decide)
  exact ⟨s2, h1, (h2 (by decide)).1⟩

/-- Helper: a call with a pending selection returns the state unchanged
(the early return of App.tsx line 445). -/
theorem hqa_noop_of_pending (s : QState) (ans : Char)
    (h : s.pending.isSome = true) : handleQuizAnswer s ans = some s := by
  simp [handleQuizAnswer, h]

/-- Helper: frame facts of a successful answer call: the item list, the
cursor and the finished flag are untouched. -/
theorem hqa_frame {s : QState} {ans : Char} {s1 : QState}
    (h : handleQuizAnswer s ans = some s1) :
    s1.items = s.items ∧ s1.cursor = s.cursor ∧ s1.finished = s.finished := by
  unfold handleQuizAnswer at h
  split at h
  · injection h with h2
    subst h2
    exact ⟨rfl, rfl, rfl⟩
  · split at h
    · exact Option.noConfusion h
    · split at h
      · injection h with h2
        subst h2
        exact ⟨rfl, rfl, rfl⟩
      · split at h
        · injection h with h2
          subst h2
          exact ⟨rfl, rfl, rfl⟩
        · injection h with h2
          subst h2
          exact ⟨rfl, rfl, rfl⟩

/-- Helper: a successful answer call on a state with no pending
selection sets the selection to the answer, certifies the cursor was in
range, and adds a non-negative amount bounded by 100 over the item
count to the score. -/
theorem hqa_some_spec {s : QState} {ans : Char} {s1 : QState}
    (hp : s.pending = none) (h : handleQuizAnswer s ans = some s1) :
    s1.pending = some ans ∧ s.cursor < s.items.length ∧
    ∃ w : ℚ, 0 ≤ w ∧ w ≤ 100 / (s.items.length : ℚ) ∧ s1.score = s.score + w := by
  unfold handleQuizAnswer at h
  rw [hp] at h
  simp only [Option.isSome_none, Bool.false_eq_true, if_false] at h
  split at h
  · exact Option.noConfusion h
  · rename_i q hg
    have hlt : s.cursor < s.items.length := by
      by_contra hc
      push_neg at hc
      rw [List.get?_eq_none.mpr hc] at hg
      exact Option.noConfusion hg
    have hn : (0 : ℚ) < (s.items.length : ℚ) := by
      have h0 : 0 < s.items.length := by omega
      exact_mod_cast h0
    split at h
    · injection h with h2
      subst h2
      exact ⟨rfl, hlt, 100 / (s.items.length : ℚ), by positivity, le_refl _, rfl⟩
    · split at h
      · injection h with h2
        subst h2
        refine ⟨rfl, hlt, 50 / (s.items.length : ℚ), by positivity, ?_, rfl⟩
        exact (div_le_div_iff_of_pos_right hn).mpr (by norm_num)
      · injection h with h2
        subst h2
        exact ⟨rfl, hlt, 0, le_refl _, by positivity, by ring⟩

/-- C5 (amended): submitAnswer is a no-op whenever a selection is
pending, so a second call before the display delay elapses registers
nothing; the function itself carries no further activity guard. -/
theorem submit_noop_when_pending :
    (∀ s : QState, ∀ ans : Char, s.pending.isSome = true →
      handleQuizAnswer s ans = some s)
    ∧ (∀ s s1 : QState, ∀ ans1 ans2 : Char, s.pending = none →
      handleQuizAnswer s ans1 = some s1 → handleQuizAnswer s1 ans2 = some s1) := by
  constructor
  · exact hqa_noop_of_pending
  · intro s s1 ans1 ans2 hp h
    have hps : s1.pending = some ans1 := (hqa_some_spec hp h).1
    exact hqa_noop_of_pending s1 ans2 (by rw [hps]; rfl)

/-- Witness for C5: a second submission on a concrete state with a
pending selection leaves the state unchanged. -/
theorem submit_noop_when_pending_witness :
    handleQuizAnswer { initQ (parseBatch ex2) with pending := some 'A' } 'B' =
      some { initQ (parseBatch ex2) with pending := some 'A' } :=
  submit_noop_when_pending.1 { initQ (parseBatch ex2) with pending := some 'A' } 'B' rfl

/-- C5 counterexample: the claim that submitAnswer is a no-op whenever
the session is not Active fails on the code. On the finished one-item
demo session, which has no pending selection, a further call is
accepted and grades again (the selection changes from none to the
answer, and by hqa_some_spec the score is increased once more); on a
session with an empty item list the index access throws (modelled as
none) instead of returning the state unchanged. -/
theorem submit_not_guarded_when_inactive :
    sFinDemo.finished = true ∧ sFinDemo.pending = none ∧
    (handleQuizAnswer sFinDemo 'A').map QState.pending = some (some 'A') ∧
    (handleQuizAnswer (initQ ([] : List Msg)) 'A').isNone = true := by decide

/-- C6 (amended): the cursor starts at 0 and never decreases; the
timeout that resolves an answer advances it by exactly 1, except on the
last item, where the cursor stays at its index and the session becomes
finished; the finished flag can only be set by that timeout on the last
item. -/
theorem cursor_monotone_finish_at_last :
    (∀ items : List Msg, (initQ items).cursor = 0)
    ∧ (∀ s : QState, ∀ e : QEvent, s.cursor ≤ (uiStep s e).cursor)
    ∧ (∀ s : QState, s.pending.isSome = true → s.cursor < s.items.length - 1 →
        uiStep s QEvent.advance = { s with pending := none, cursor := s.cursor + 1 })
    ∧ (∀ s : QState, s.pending.isSome = true → ¬ s.cursor < s.items.length - 1 →
        uiStep s QEvent.advance = { s with pending := none, finished := true })
    ∧ (∀ s : QState, ∀ e : QEvent, s.finished = false → (uiStep s e).finished = true →
        e = QEvent.advance ∧ s.pending.isSome = true ∧ ¬ s.cursor < s.items.length - 1) := by
  refine ⟨fun _ => rfl, ?_, ?_, ?_, ?_⟩
  · intro s e
    cases e with
    | answer ans =>
      show s.cursor ≤ (uiStep s (QEvent.answer ans)).cursor
      simp only [uiStep]
      split
      · exact Nat.le_refl _
      · split
        · exact Nat.le_refl _
        · cases h : handleQuizAnswer s ans with
          | none => simp only [h]; exact Nat.le_refl _
          | some s2 => simp only [h]; exact Nat.le_of_eq (hqa_frame h).2.1.symm
    | advance =>
      show s.cursor ≤ (uiStep s QEvent.advance).cursor
      simp only [uiStep]
      split
      · unfold quizAdvance
        split
        · exact Nat.le_succ _
        · exact Nat.le_refl _
      · exact Nat.le_refl _
  · intro s hp hlt
    simp only [uiStep, if_pos hp]
    unfold quizAdvance
    rw [if_pos hlt]
  · intro s hp hlt
    simp only [uiStep, if_pos hp]
    unfold quizAdvance
    rw [if_neg hlt]
  · intro s e hf hf2
    cases e with
    | answer ans =>
      exfalso
      simp only [uiStep] at hf2
      split at hf2
      · rename_i hfin
        rw [hf] at hfin
        exact Bool.noConfusion hfin
      · split at hf2
        · rw [hf2] at hf
          exact Bool.noConfusion hf
        · split at hf2
          · rename_i s2 h
            rw [(hqa_frame h).2.2, hf] at hf2
            exact Bool.noConfusion hf2
          · rw [hf2] at hf
            exact Bool.noConfusion hf
    | advance =>
      by_cases hp : s.pending.isSome = true
      · by_cases hlt : s.cursor < s.items.length - 1
        · exfalso
          simp only [uiStep, if_pos hp] at hf2
          unfold quizAdvance at hf2
          rw [if_pos hlt] at hf2
          have h3 : s.finished = true := hf2
          rw [hf] at h3
          exact Bool.noConfusion h3
        · exact ⟨rfl, hp, hlt⟩
      · exfalso
        simp only [uiStep, if_neg hp] at hf2
        rw [hf] at hf2
        exact Bool.noConfusion hf2

/-- Witness for C6: resolving the pending answer on the concrete
two-item session advances the cursor from 0 to 1. -/
theorem cursor_monotone_finish_at_last_witness :
    uiStep sMidDemo QEvent.advance =
      { sMidDemo with pending := none, cursor := sMidDemo.cursor + 1 } :=
  cursor_monotone_finish_at_last.2.2.1 sMidDemo (by decide) (by decide)

/-- C6 counterexample: on the finished one-item demo session the cursor
is 0, not the item count 1, so the cursor does not increase by 1 on the
last resolved answer and the finished transition happens with the
cursor strictly below the number of items. -/
theorem finished_with_cursor_below_count :
    sFinDemo.finished = true ∧ sFinDemo.cursor = 0 ∧ sFinDemo.items.length = 1 := by
  decide

theorem Jinv_init (items : List Msg) : Jinv (initQ items) := by
  constructor
  · intro _
    exact ⟨rfl, rfl⟩
  · intro he
    have hlen : 0 < items.length := by
      cases items with
      | nil => simp [initQ] at he
      | cons a as => simp
    refine ⟨hlen, ?_, ?_⟩
    · intro hf
      exact Bool.noConfusion hf
    · intro _
      simp [initQ, pendBit]

theorem Jinv_step (s : QState) (e : QEvent) (hJ : Jinv s) : Jinv (uiStep s e) := by
  cases e with
  | answer ans =>
    simp only [uiStep]
    split
    · exact hJ
    · split
      · exact hJ
      · rename_i hfin hne
        cases h : handleQuizAnswer s ans with
        | none => exact hJ
        | some s2 =>
          cases hp : s.pending with
          | some c =>
            have hs : handleQuizAnswer s ans = some s := by
              exact hqa_noop_of_pending s ans (by rw [hp]; rfl)
            rw [hs] at h
            injection h with h2
            rw [← h2]
            exact hJ
          | none =>
            have hne2 : s.items.isEmpty = false := by
              cases hb : s.items.isEmpty with
              | false => rfl
              | true => exact absurd hb hne
            have hfin2 : s.finished = false := by
              cases hb : s.finished with
              | false => rfl
              | true => exact absurd hb hfin
            obtain ⟨hc, _, hs⟩ := hJ.2 hne2
            obtain ⟨hpend2, _, w, hw0, hwle, hsc⟩ := hqa_some_spec hp h
            obtain ⟨hit, hcur, hfi⟩ := hqa_frame h
            have hscore := hs hfin2
            constructor
            · intro he
              rw [hit] at he
              rw [he] at hne2
              exact Bool.noConfusion hne2
            · intro _
              refine ⟨by rw [hit, hcur]; exact hc, ?_, ?_⟩
              · intro hf2
                rw [hfi, hfin2] at hf2
                exact Bool.noConfusion hf2
              · intro _
                rw [hsc, hit, hcur]
                have hb0 : pendBit s = 0 := by simp [pendBit, hp]
                have hb1 : pendBit s2 = 1 := by simp [pendBit, hpend2]
                rw [hb1]
                rw [hb0] at hscore
                have hring : ((s.cursor : ℚ) + 1) * (100 / (s.items.length : ℚ)) =
                    ((s.cursor : ℚ) + 0) * (100 / (s.items.length : ℚ)) +
                      100 / (s.items.length : ℚ) := by ring
                rw [hring]
                exact add_le_add hscore hwle
  | advance =>
    simp only [uiStep]
    split
    · rename_i hp
      have hpn : s.pending ≠ none := by
        intro hn
        rw [hn] at hp
        exact Bool.noConfusion hp
      have hne2 : s.items.isEmpty = false := by
        cases hb : s.items.isEmpty with
        | false => rfl
        | true => exact absurd (hJ.1 hb).2 hpn
      obtain ⟨hc, hfin, hs⟩ := hJ.2 hne2
      have hfin2 : s.finished = false := by
        cases hb : s.finished with
        | false => rfl
        | true => exact absurd (hfin hb).1 hpn
      have hscore := hs hfin2
      have hb1 : pendBit s = 1 := by simp [pendBit, Option.isSome_iff_ne_none.mpr hpn]
      rw [hb1] at hscore
      have hlen : 0 < s.items.length := by
        cases hl : s.items with
        | nil => rw [hl] at hne2; simp at hne2
        | cons a as => simp
      have hnq : (0 : ℚ) < (s.items.length : ℚ) := by exact_mod_cast hlen
      unfold quizAdvance
      split
      · rename_i hlt
        constructor
        · intro he
          simp only at he
          rw [he] at hne2
          exact Bool.noConfusion hne2
        · intro _
          refine ⟨by simp only; omega, ?_, ?_⟩
          · intro hf2
            simp only at hf2
            rw [hfin2] at hf2
            exact Bool.noConfusion hf2
          · intro _
            simp only
            have hb0 : pendBit { s with pending := none, cursor := s.cursor + 1 } = 0 := by
              simp [pendBit]
            rw [hb0]
            push_cast
            have hring : ((s.cursor : ℚ) + 1 + 0) * (100 / (s.items.length : ℚ)) =
                ((s.cursor : ℚ) + 1) * (100 / (s.items.length : ℚ)) := by ring
            rw [hring]
            exact hscore
      · constructor
        · intro he
          simp only at he
          rw [he] at hne2
          exact Bool.noConfusion hne2
        · intro _
          refine ⟨by simp only; exact hc, ?_, ?_⟩
          · intro _
            refine ⟨rfl, ?_⟩
            simp only
            have hcc : ((s.cursor : ℚ) + 1) ≤ (s.items.length : ℚ) := by
              have : s.cursor + 1 ≤ s.items.length := hc
              exact_mod_cast this
            have hu0 : (0 : ℚ) ≤ 100 / (s.items.length : ℚ) := by positivity
            have hmul : ((s.cursor : ℚ) + 1) * (100 / (s.items.length : ℚ)) ≤
                (s.items.length : ℚ) * (100 / (s.items.length : ℚ)) :=
              mul_le_mul_of_nonneg_right hcc hu0
            have hcancel : (s.items.length : ℚ) * (100 / (s.items.length : ℚ)) = 100 := by
              field_simp
            calc s.score ≤ ((s.cursor : ℚ) + 1) * (100 / (s.items.length : ℚ)) := hscore
              _ ≤ (s.items.length : ℚ) * (100 / (s.items.length : ℚ)) := hmul
              _ = 100 := hcancel
          · intro hf2
            simp only at hf2
            exact Bool.noConfusion hf2
    · exact hJ

theorem Jinv_run (es : List QEvent) : ∀ s : QState, Jinv s → Jinv (runQ s es) := by
  induction es with
  | nil => exact fun s h => h
  | cons e es ih => exact fun s h => ih (uiStep s e) (Jinv_step s e h)

/-- C9: over every run of a session from a freshly installed batch, the
accumulated score never exceeds 100, and the finish screen reports the
rounded score, which therefore never exceeds 100 either. -/
theorem score_never_exceeds_100 (items : List Msg) (es : List QEvent) :
    (runQ (initQ items) es).score ≤ 100 ∧
    finalScoreDisplay (runQ (initQ items) es) = round (runQ (initQ items) es).score ∧
    finalScoreDisplay (runQ (initQ items) es) ≤ 100 := by
  have hJ := Jinv_run es (initQ items) (Jinv_init items)
  set s := runQ (initQ items) es with hsdef
  have hsc : s.score ≤ 100 := by
    cases hb : s.items.isEmpty with
    | true =>
      rw [(hJ.1 hb).1]
      norm_num
    | false =>
      obtain ⟨hc, hfin, hs⟩ := hJ.2 hb
      cases hf : s.finished with
      | true => exact (hfin hf).2
      | false =>
        have hscore := hs hf
        have hlen : 0 < s.items.length := by omega
        have hnq : (0 : ℚ) < (s.items.length : ℚ) := by exact_mod_cast hlen
        have hbit : pendBit s ≤ 1 := by
          unfold pendBit
          split
          · exact le_refl 1
          · norm_num
        have hbit0 : 0 ≤ pendBit s := by
          unfold pendBit
          split
          · norm_num
          · exact le_refl 0
        have hcc : ((s.cursor : ℚ) + pendBit s) ≤ (s.items.length : ℚ) := by
          have h1 : ((s.cursor : ℚ) + 1) ≤ (s.items.length : ℚ) := by
            have : s.cursor + 1 ≤ s.items.length := hc
            exact_mod_cast this
          linarith
        have hu0 : (0 : ℚ) ≤ 100 / (s.items.length : ℚ) := by positivity
        have hcancel : (s.items.length : ℚ) * (100 / (s.items.length : ℚ)) = 100 := by
          field_simp
        calc s.score ≤ ((s.cursor : ℚ) + pendBit s) * (100 / (s.items.length : ℚ)) := hscore
          _ ≤ (s.items.length : ℚ) * (100 / (s.items.length : ℚ)) :=
            mul_le_mul_of_nonneg_right hcc hu0
          _ = 100 := hcancel
  refine ⟨hsc, rfl, ?_⟩
  have h1 : finalScoreDisplay s ≤ round (100 : ℚ) := by
    unfold finalScoreDisplay
    rw [round_eq, round_eq]
    exact Int.floor_le_floor (by linarith)
  have h2 : round (100 : ℚ) = 100 := by
    have h3 : ((100 : ℤ) : ℚ) = (100 : ℚ) := by norm_num
    rw [← h3, round_intCast]
  rw [h2] at h1
  exact h1

theorem foldrMin_le_init (l : List Nat) (a : Nat) : l.foldr min a ≤ a := by
  induction l with
  | nil => exact Nat.le_refl a
  | cons x xs ih => exact Nat.le_trans (Nat.min_le_right _ _) ih

theorem foldrMin_le_mem {l : List Nat} {b : Nat} (h : b ∈ l) (a : Nat) :
    l.foldr min a ≤ b := by
  induction l with
  | nil => cases h
  | cons x xs ih =>
    cases h with
    | head => exact Nat.min_le_left _ _
    | tail _ h2 => exact Nat.le_trans (Nat.min_le_right _ _) (ih h2)

theorem foldrMin_eq (l : List Nat) (a : Nat) : l.foldr min a = a ∨ l.foldr min a ∈ l := by
  induction l with
  | nil => exact Or.inl rfl
  | cons x xs ih =>
    show min x (xs.foldr min a) = a ∨ min x (xs.foldr min a) ∈ x :: xs
    rcases Nat.le_total x (xs.foldr min a) with h | h
    · rw [Nat.min_eq_left h]
      exact Or.inr (List.mem_cons_self x xs)
    · rw [Nat.min_eq_right h]
      cases ih with
      | inl h2 => exact Or.inl h2
      | inr h2 => exact Or.inr (List.mem_cons_of_mem x h2)

/-- Helper: every member of a parsed options list is the stored form of
a label of the fixed list whose extraction succeeded. -/
theorem parseOptions_mem {block : Str} {o : Str} (h : o ∈ parseOptions block) :
    ∃ l t, l ∈ quizLabels ∧ extractOpt block l = some t ∧ o = mkOpt l t := by
  have hgen : ∀ L : List Char,
      o ∈ ((L.map fun l => match extractOpt block l with
          | some t => mkOpt l t
          | none => []).filter fun o2 => !o2.isEmpty) →
      ∃ l t, l ∈ L ∧ extractOpt block l = some t ∧ o = mkOpt l t := by
    intro L
    induction L with
    | nil =>
      intro h2
      simp at h2
    | cons a as ih =>
      intro h2
      simp only [List.map_cons] at h2
      cases hx : extractOpt block a with
      | some t =>
        rw [hx, List.filter_cons] at h2
        rw [if_pos (by simp [mkOpt])] at h2
        cases h2 with
        | head => exact ⟨a, t, List.mem_cons_self a as, hx, rfl⟩
        | tail _ h3 =>
          obtain ⟨l, t2, hl, he, ho⟩ := ih h3
          exact ⟨l, t2, List.mem_cons_of_mem a hl, he, ho⟩
      | none =>
        rw [hx, List.filter_cons] at h2
        rw [if_neg (by simp)] at h2
        obtain ⟨l, t2, hl, he, ho⟩ := ih h2
        exact ⟨l, t2, List.mem_cons_of_mem a hl, he, ho⟩
  exact hgen quizLabels h

/-- Helper: the labels of the surviving options form a sublist of the
fixed label list, in order and without repetition. -/
theorem parseOptions_labels_sublist (block : Str) :
    ((parseOptions block).map fun o => o.headD ' ').Sublist quizLabels := by
  have hgen : ∀ L : List Char,
      (((L.map fun l => match extractOpt block l with
          | some t => mkOpt l t
          | none => []).filter fun o2 => !o2.isEmpty).map fun o => o.headD ' ').Sublist L := by
    intro L
    induction L with
    | nil => simp
    | cons a as ih =>
      simp only [List.map_cons]
      cases hx : extractOpt block a with
      | some t =>
        rw [List.filter_cons, if_pos (by simp [mkOpt])]
        simp only [List.map_cons]
        exact List.Sublist.cons₂ a ih
      | none =>
        rw [List.filter_cons, if_neg (by simp)]
        exact List.Sublist.cons a ih
  exact hgen quizLabels

/-- Helper: a member of a parsed batch is the parse of some segment,
its options field holds the parsed options of that segment, and it
passed the non-emptiness filter. -/
theorem parseBatch_mem {raw : Str} {q : Msg} (h : q ∈ parseBatch raw) :
    (∃ b : Str, q = parseBlock b ∧ q.options = some (parseOptions b)) ∧
    q.options.getD [] ≠ [] := by
  unfold parseBatch at h
  obtain ⟨hmem, hpred⟩ := List.mem_filter.mp h
  obtain ⟨b, _, hb⟩ := List.mem_map.mp hmem
  refine ⟨⟨b, hb.symm, by rw [← hb]; rfl⟩, ?_⟩
  cases ho : q.options with
  | none =>
    rw [ho] at hpred
    exact Bool.noConfusion hpred
  | some l =>
    rw [ho] at hpred
    simp only [Bool.not_eq_true'] at hpred
    simp only [ho, Option.getD_some]
    intro hnil
    rw [hnil] at hpred
    simp at hpred

/-- C10: every quiz item emitted by the batch parser or the single
parser lists its surviving options in fixed label order, A before B
before C before D with no label twice (a sublist of the fixed label
list, hence nodup), and each stored option string starts with its own
label, a closing parenthesis and a space, so the label is recoverable
from the first character. -/
theorem options_in_label_order :
    (∀ raw : Str, ∀ q ∈ parseBatch raw,
      ((q.options.getD []).map fun o => o.headD ' ').Sublist quizLabels
      ∧ ((q.options.getD []).map fun o => o.headD ' ').Nodup
      ∧ ∀ o ∈ q.options.getD [], o.take 3 = [o.headD ' ', ')', ' '])
    ∧ (∀ t : Str, (parseSingle t).mtype = some MsgType.quiz →
      (((parseSingle t).options.getD []).map fun o => o.headD ' ').Sublist quizLabels
      ∧ ∀ o ∈ (parseSingle t).options.getD [], o.take 3 = [o.headD ' ', ')', ' ']) := by
  have hshape : ∀ block : Str, ∀ o ∈ parseOptions block, o.take 3 = [o.headD ' ', ')', ' '] := by
    intro block o ho
    obtain ⟨l, t, _, _, rfl⟩ := parseOptions_mem ho
    rfl
  constructor
  · intro raw q hq
    obtain ⟨⟨b, _, hob⟩, _⟩ := parseBatch_mem hq
    rw [hob]
    simp only [Option.getD_some]
    refine ⟨parseOptions_labels_sublist b, ?_, hshape b⟩
    exact List.Nodup.sublist (parseOptions_labels_sublist b) (by decide)
  · intro t hq
    by_cases hcond : (containsSub mSORU t && containsSub mOptA t) = true
    · have hps : (parseSingle t).options = some (parseOptions t) := by
        unfold parseSingle
        rw [if_pos hcond]
      rw [hps]
      simp only [Option.getD_some]
      exact ⟨parseOptions_labels_sublist t, hshape t⟩
    · exfalso
      unfold parseSingle at hq
      rw [if_neg hcond] at hq
      exact Option.noConfusion hq

/-- Witness for C10 on the first item of the parsed example batch. -/
theorem options_in_label_order_witness :
    ((((parseBatch ex2).headD msgDefault).options.getD []).map
      fun o => o.headD ' ').Sublist quizLabels :=
  (options_in_label_order.1 ex2 ((parseBatch ex2).headD msgDefault) (by decide)).1

/-- C4 (amended): every item kept by the batch parser has a non-empty
options list (malformed segments are filtered out rather than crashing
or surviving as placeholders), and whenever the single parser takes the
quiz branch its options list is likewise non-empty, because the shape
guard requires the A) marker and the A extraction then succeeds. The
correct label, however, is captured independently of the options. -/
theorem parsed_items_have_options :
    (∀ raw : Str, ∀ q ∈ parseBatch raw, q.options.getD [] ≠ [])
    ∧ (∀ t : Str, containsSub mSORU t = true → containsSub mOptA t = true →
        (parseSingle t).options = some (parseOptions t) ∧ parseOptions t ≠ []) := by
  constructor
  · intro raw q hq
    exact (parseBatch_mem hq).2
  · intro t h1 h2
    have hcond : (containsSub mSORU t && containsSub mOptA t) = true := by
      rw [h1, h2]
      rfl
    have hps : (parseSingle t).options = some (parseOptions t) := by
      unfold parseSingle
      rw [if_pos hcond]
    refine ⟨hps, ?_⟩
    have hA : mOptA = ['A', ')'] := rfl
    unfold containsSub at h2
    cases hx : firstIdx? ['A', ')'] t with
    | none =>
      rw [hA, hx] at h2
      exact Bool.noConfusion h2
    | some i =>
      have hext : extractOpt t 'A' =
          some (trimL ((t.drop (i + 2)).take (firstTermIdx (t.drop (i + 2))))) := by
        unfold extractOpt
        rw [hx]
      unfold parseOptions optionEntries quizLabels
      simp only [List.map_cons, hext]
      rw [List.filter_cons, if_pos (by simp [mkOpt])]
      exact List.cons_ne_nil _ _

/-- Witness for C4 on the first item of the parsed example batch. -/
theorem parsed_items_have_options_witness :
    ((parseBatch ex2).headD msgDefault).options.getD [] ≠ [] :=
  parsed_items_have_options.1 ex2 ((parseBatch ex2).headD msgDefault) (by decide)

/-- C4 counterexample: the invariant that a present correct label
references a label among the options fails on the code: the segment
with the CEVAP: letter B but only an A option parses to a single kept
item whose correct label is B while its only option carries the label
A, so the correct label references no option of the item. -/
theorem correct_label_not_among_options :
    (parseBatch exBadLabel).length = 1 ∧
    ((parseBatch exBadLabel).headD msgDefault).correctAnswer = some 'B' ∧
    ((parseBatch exBadLabel).headD msgDefault).options.getD [] = ["A) x".toList] := by
  decide

/-- C7 (amended): for each label, extraction starts at the first
occurrence of the label-parenthesis pair (whitespace after it is
absorbed by the trim) and the capture ends at the earliest occurrence of
a B), C) or D) marker, the CEVAP: marker, the YAKIN: marker, or end of
text; labels whose pair never occurs yield no stored option at all. -/
theorem option_extraction_behaviour :
    (∀ s : Str,
      (∀ m ∈ optTerms, ∀ j, firstIdx? m s = some j → firstTermIdx s ≤ j)
      ∧ (firstTermIdx s = s.length ∨
          ∃ m ∈ optTerms, firstIdx? m s = some (firstTermIdx s)))
    ∧ (∀ block : Str, ∀ l : Char, ∀ i, firstIdx? [l, ')'] block = some i →
        extractOpt block l =
          some (trimL ((block.drop (i + 2)).take (firstTermIdx (block.drop (i + 2))))))
    ∧ (∀ block : Str, ∀ l : Char, firstIdx? [l, ')'] block = none →
        ∀ o ∈ parseOptions block, o.headD ' ' ≠ l) := by
  refine ⟨?_, ?_, ?_⟩
  · intro s
    constructor
    · intro m hm j hj
      have hmem : j ∈ optTerms.map (fun m2 => (firstIdx? m2 s).getD s.length) := by
        apply List.mem_map.mpr
        refine ⟨m, hm, ?_⟩
        show (firstIdx? m s).getD s.length = j
        rw [hj]
        rfl
      exact foldrMin_le_mem hmem s.length
    · cases foldrMin_eq (optTerms.map (fun m2 => (firstIdx? m2 s).getD s.length)) s.length with
      | inl h => exact Or.inl h
      | inr h =>
        obtain ⟨m, hm, hv⟩ := List.mem_map.mp h
        have hv2 : (firstIdx? m s).getD s.length = firstTermIdx s := hv
        cases hx : firstIdx? m s with
        | none =>
          rw [hx] at hv2
          exact Or.inl hv2.symm
        | some j =>
          rw [hx] at hv2
          have hv3 : j = firstTermIdx s := hv2
          exact Or.inr ⟨m, hm, by rw [hx, hv3]⟩
  · intro block l i hi
    unfold extractOpt
    rw [hi]
  · intro block l hnone o ho
    obtain ⟨l2, t, _, hext, rfl⟩ := parseOptions_mem ho
    intro hhead
    have hl2 : l2 = l := hhead
    rw [hl2] at hext
    unfold extractOpt at hext
    rw [hnone] at hext
    exact Option.noConfusion hext

/-- Witness for C7 at the concrete segment: the B option of the
counterexample segment is cut at the terminator index. -/
theorem option_extraction_behaviour_witness :
    extractOpt exC7 'B' =
      some (trimL ((exC7.drop (8 + 2)).take (firstTermIdx (exC7.drop (8 + 2))))) :=
  option_extraction_behaviour.2.1 exC7 'B' 8 (by decide)

/-- C7 counterexample: the claim that an option capture ends at the
next label marker fails on the code: in the segment where an A) marker
occurs inside the text of option B, the code captures past it up to the
CEVAP: marker, while the claimed terminator set cuts at the A) marker;
and the claimed start pattern of label, parenthesis and space does not
match the code either, which accepts a label with no following space. -/
theorem option_terminators_exclude_A :
    extractOpt exC7 'B' = some ("foo A) bar".toList) ∧
    extractOptSpec exC7 'B' = some ("foo".toList) ∧
    parseOptions ("A)x B) y".toList) = ["A) x".toList, "B) y".toList] ∧
    containsSub ("A) ".toList) ("A)x B) y".toList) = false := by decide

/-- C2 (amended): batch parsing splits on the three-dash delimiter
first, applies stem extraction, option extraction and label capture to
each segment independently, and discards segments with no surviving
option, so the result is never longer than the segment count; the
two-segment example yields exactly the two items with correct labels A
and B, and a batch with one optionless segment yields one item from two
segments. -/
theorem batch_split_then_per_segment :
    (∀ raw : Str, (parseBatch raw).length ≤ (splitOn ("---".toList) raw).length)
    ∧ (parseBatch ex2).map Msg.correctAnswer = [some 'A', some 'B']
    ∧ (parseBatch exDrop).length = 1 ∧ (splitOn ("---".toList) exDrop).length = 2 := by
  refine ⟨?_, by decide, by decide, by decide⟩
  intro raw
  calc (parseBatch raw).length
      ≤ ((splitOn ("---".toList) raw).map parseBlock).length :=
        List.length_filter_le _ _
    _ = (splitOn ("---".toList) raw).length := List.length_map _ _

/-- C2 counterexample: the claim that quiz-shape detection is applied
to each segment fails on the code: a segment with no SORU: marker is
not treated as plain and dropped; it is parsed anyway, kept because its
A option survives, and given the placeholder stem. -/
theorem batch_has_no_shape_detection :
    containsSub mSORU exShape = false ∧ (parseBatch exShape).length = 1 ∧
    ((parseBatch exShape).headD msgDefault).options.getD [] = ["A) x".toList] ∧
    ((parseBatch exShape).headD msgDefault).text = stemFallback := by decide

/-- C3: every start resets score, cursor, outcomes, selection and the
finished flag, and requests 5 items in short mode and 100 in marathon
mode; but the response of an older outstanding request is not
discarded: completions apply in arrival order, so when the stale
response arrives after the newest one, the installed items are the
stale ones, not the newest ones. -/
theorem stale_batch_response_wins :
    (∀ s : QState, (startQuizReset s).score = 0 ∧ (startQuizReset s).cursor = 0
      ∧ (∀ i, (startQuizReset s).outcomes i = none)
      ∧ (startQuizReset s).pending = none ∧ (startQuizReset s).finished = false)
    ∧ questionCount false = 5 ∧ questionCount true = 100
    ∧ (startQuizComplete (startQuizComplete (startQuizReset (startQuizReset (initQ [])))
        ex2) exOne).items = parseBatch exOne
    ∧ parseBatch exOne ≠ parseBatch ex2 := by
  refine ⟨fun s => ⟨rfl, rfl, fun i => rfl, rfl, rfl⟩, rfl, rfl, rfl, by decide⟩

/-- C8 counterexample: the claim that a failed generation call is
converted into a user-visible fallback tutor message fails for the
study-message dispatch: on a thrown error the chat log gains only the
user message and no tutor message at all. -/
theorem study_error_appends_no_fallback :
    handleStudyMessage [] ("merhaba".toList) GenOutcome.err = [userMsg ("merhaba".toList)] ∧
    (userMsg ("merhaba".toList)).role = Role.user := by
  exact ⟨rfl, rfl⟩

/-- C8 (amended): generation and media errors are caught at the
dispatch boundary and are never propagated or fatal: handleAiGenerate
converts the failure into the fixed fallback response text, while
handleStudyMessage swallows the error, leaving the prior log plus the
user message intact and appending no fallback tutor message. -/
theorem error_caught_at_dispatch :
    handleAiGenerate GenOutcome.err = fallbackText
    ∧ (∀ msgs : List Msg, ∀ text : Str,
        handleStudyMessage msgs text GenOutcome.err = msgs ++ [userMsg text]) := by
  exact ⟨rfl, fun msgs text => rfl⟩
